import Mathlib

/-!
Shallow embedding of `runtime/debug/stack.go` (package `debug`): the stack
formatter `stack`, the line lookup `source`, the symbol-name cleanup
`function`, the compact location lister `Callers`, and the decimal encoders
`itoa` / `uitoa`.

Go byte strings are modelled as `List Char` (every byte string handled by
this code is ASCII except the center-dot glyph, which is a single glyph at
character level, so character-level modelling is faithful: the byte `'.'`
never occurs inside a multi-byte UTF-8 sequence).  Machine integers are
modelled as `Int` / `Nat` with explicit wrap-around where Go overflows.
External collaborators (the runtime frame walker, the symbol table, the
file system) are parameters: a frame source is a list of frames, the
symbol table is `Nat → Option Str`, the file system is `Str → Option Str`.
-/

/-- Go byte strings, modelled at character level. -/
abbrev Str := List Char

/-- `dunno = []byte("???")`. -/
def dunno : Str := "???".toList

/-- The center-dot glyph of Go's name mangling (`centerDot = []byte("·")`). -/
def centerDot : Char := '·'

/-! ## Integer-to-decimal encoder (`itoa`, `uitoa`) -/

/-- The digit byte `byte('0' + d)` written by `uitoa`. -/
def digitCh (d : Nat) : Char := Char.ofNat (48 + d)

/-- The digit-extraction loop of `uitoa`: Go writes digits from the end of a
20-byte buffer toward the front (`for val >= 10 { q := val/10; buf[i] =
byte('0'+val-q*10); i--; val = q }; buf[i] = byte('0'+val)`).  The first
argument is the number of buffer slots still free (20 at the start); the
returned list is the populated suffix of the buffer.  For every 64-bit value
the buffer never runs out. -/
def uitoaLoop : Nat → Nat → Str → Str
  | 0, _, acc => acc
  | fuel + 1, val, acc =>
    if val < 10 then digitCh val :: acc
    else uitoaLoop fuel (val / 10) (digitCh (val % 10) :: acc)

/-- `uitoa(val uint) string`: `"0"` directly for zero, otherwise the digit
loop over the 20-byte buffer. -/
def uitoa (val : Nat) : Str :=
  if val = 0 then "0".toList else uitoaLoop 20 val []

/-- Wrap-around of Go's 64-bit signed arithmetic: the representative of
`v` modulo `2^64` lying in `[-2^63, 2^63)`.  Used to model the unary
negation `-val` on `int`, which overflows at the minimum value. -/
def int64wrap (v : Int) : Int := (v + 2 ^ 63) % 2 ^ 64 - 2 ^ 63

/-- Go's conversion `uint(v)` of a 64-bit signed value: the bit pattern read
as an unsigned integer, i.e. the value modulo `2^64`. -/
def uintOfInt (v : Int) : Nat := (v % 2 ^ 64).toNat

/-- `itoa(val int) string`: `"-" + uitoa(uint(-val))` for negatives (the
negation wraps on 64-bit `int` before the unsigned conversion), else
`uitoa(uint(val))`. -/
def itoa (val : Int) : Str :=
  if val < 0 then '-' :: uitoa (uintOfInt (int64wrap (-val)))
  else uitoa (uintOfInt val)

/-- Spec side: parse a decimal digit string back as a base-10 integer. -/
def parseDec (s : Str) : Nat := s.foldl (fun a c => a * 10 + (c.toNat - 48)) 0

lemma digitCh_toNat {d : Nat} (h : d < 10) : (digitCh d).toNat = 48 + d := by
  interval_cases d <;> decide

lemma uitoaLoop_append (fuel : Nat) : ∀ (val : Nat) (acc₁ acc₂ : Str),
    uitoaLoop fuel val (acc₁ ++ acc₂) = uitoaLoop fuel val acc₁ ++ acc₂ := by
  induction fuel with
  | zero => intro val acc₁ acc₂; rfl
  | succ n ih =>
    intro val acc₁ acc₂
    by_cases h : val < 10
    · simp [uitoaLoop, h]
    · simp only [uitoaLoop, if_neg h]
      rw [← List.cons_append, ih]

lemma parse_uitoaLoop (fuel : Nat) : ∀ val : Nat, val < 10 ^ fuel →
    parseDec (uitoaLoop fuel val []) = val := by
  induction fuel with
  | zero =>
    intro val h
    interval_cases val
    rfl
  | succ n ih =>
    intro val h
    by_cases h10 : val < 10
    · simp only [uitoaLoop, if_pos h10]
      simp [parseDec, digitCh_toNat h10]
    · have hd : val / 10 < 10 ^ n := by
        rw [Nat.div_lt_iff_lt_mul (by norm_num : 0 < 10)]
        calc val < 10 ^ (n + 1) := h
        _ = 10 ^ n * 10 := by ring
      have hmod : val % 10 < 10 := Nat.mod_lt _ (by norm_num)
      simp only [uitoaLoop, if_neg h10]
      have : (digitCh (val % 10) :: ([] : Str)) = [] ++ [digitCh (val % 10)] := rfl
      rw [this, uitoaLoop_append]
      unfold parseDec
      rw [List.foldl_append]
      have := ih (val / 10) hd
      unfold parseDec at this
      rw [this]
      simp [digitCh_toNat hmod]
      omega

lemma parse_uitoa {val : Nat} (h : val < 10 ^ 20) : parseDec (uitoa val) = val := by
  by_cases h0 : val = 0
  · subst h0; rfl
  · simp only [uitoa, if_neg h0]
    exact parse_uitoaLoop 20 val h

lemma uintOfInt_int64wrap (x : Int) : uintOfInt (int64wrap x) = uintOfInt x := by
  unfold uintOfInt int64wrap
  congr 1
  have h63 : (2 : Int) ^ 63 = 9223372036854775808 := by norm_num
  have h64 : (2 : Int) ^ 64 = 18446744073709551616 := by norm_num
  rw [h63, h64]
  omega

/-- C2: for every non-negative 64-bit integer `n`, the decimal text produced
by `itoa`, parsed back as a base-10 integer, equals `n`; `itoa 0 = "0"`; and
the same round trip holds for `uitoa` on every unsigned 64-bit value. -/
theorem C2_itoa_round_trip (v : Int) (h0 : 0 ≤ v) (h1 : v < 2 ^ 63) :
    ((parseDec (itoa v) : Int) = v ∧ itoa 0 = "0".toList) ∧
    ∀ m : Nat, m < 2 ^ 64 → parseDec (uitoa m) = m := by
  have hPow : ∀ m : Nat, m < 2 ^ 64 → parseDec (uitoa m) = m := by
    intro m hm
    exact parse_uitoa (lt_of_lt_of_le hm (by norm_num))
  refine ⟨⟨?_, by decide⟩, hPow⟩
  have hv : ¬ v < 0 := not_lt.mpr h0
  have h64 : v < 2 ^ 64 := lt_trans h1 (by norm_num)
  have hmod : v % 2 ^ 64 = v := Int.emod_eq_of_lt h0 h64
  have htn : uintOfInt v = v.toNat := by unfold uintOfInt; rw [hmod]
  have htlt : v.toNat < 2 ^ 64 := by
    have h2 : ((2 : Int) ^ 64) = ((2 ^ 64 : Nat) : Int) := by push_cast
    omega
  simp only [itoa, if_neg hv, htn]
  rw [hPow v.toNat htlt]
  exact Int.toNat_of_nonneg h0

/-- Witness for C2 at `v = 12345`. -/
theorem C2_witness :
    ((0 : Int) ≤ 12345 ∧ (12345 : Int) < 2 ^ 63) ∧
    (((parseDec (itoa 12345) : Int) = 12345 ∧ itoa 0 = "0".toList) ∧
      ∀ m : Nat, m < 2 ^ 64 → parseDec (uitoa m) = m) :=
  ⟨⟨by norm_num, by norm_num⟩, C2_itoa_round_trip 12345 (by norm_num) (by norm_num)⟩

/-- C3: for every negative 64-bit integer `v`, `itoa v` starts with the
character `-` and the remainder of the string is the encoding of the
magnitude, `itoa (-v)`. -/
theorem C3_itoa_negative (v : Int) (hlo : -(2 ^ 63) ≤ v) (hneg : v < 0) :
    itoa v = '-' :: itoa (-v) ∧ (itoa v).head? = some '-' := by
  have hnn : ¬ (-v) < 0 := by omega
  have h1 : itoa v = '-' :: uitoa (uintOfInt (-v)) := by
    simp only [itoa, if_pos hneg, uintOfInt_int64wrap]
  have h2 : itoa (-v) = uitoa (uintOfInt (-v)) := by
    simp only [itoa, if_neg hnn]
  rw [h1, h2]
  exact ⟨rfl, rfl⟩

/-- Witness for C3 at `v = -7`. -/
theorem C3_witness :
    (-(2 ^ 63) ≤ (-7 : Int) ∧ (-7 : Int) < 0) ∧
    (itoa (-7) = '-' :: itoa (-(-7)) ∧ (itoa (-7)).head? = some '-') :=
  ⟨⟨by norm_num, by norm_num⟩, C3_itoa_negative (-7) (by norm_num) (by norm_num)⟩

/-- C10: at the minimum 64-bit signed integer, `itoa` produces the correct
decimal text `"-9223372036854775808"`: the Go negation `-val` wraps back to
the same negative value, but the unsigned conversion then yields the correct
magnitude `2^63`. -/
theorem C10_itoa_min_int64 :
    itoa (-(2 ^ 63) : Int) = "-9223372036854775808".toList ∧
    int64wrap (-(-(2 ^ 63) : Int)) = -(2 ^ 63) ∧
    uintOfInt (int64wrap (-(-(2 ^ 63) : Int))) = 2 ^ 63 := by
  refine ⟨by decide, by decide, by decide⟩

/-! ## Source-line lookup (`source`) -/

/-- The cutset `" \t"` of `bytes.Trim`. -/
def isCutset (c : Char) : Bool := c == ' ' || c == '\t'

/-- `bytes.Trim(s, " \t")`: the slice of `s` with all leading and all
trailing bytes from the cutset removed. -/
def bytesTrim (s : Str) : Str :=
  ((s.dropWhile isCutset).reverse.dropWhile isCutset).reverse

/-- `source(lines [][]byte, n int) []byte`: the sentinel `"???"` when `n`
is negative or at least `len(lines)`, otherwise `bytes.Trim(lines[n], " \t")`. -/
def source (lines : List Str) (n : Int) : Str :=
  if n < 0 ∨ (lines.length : Int) ≤ n then dunno
  else bytesTrim (lines.getD n.toNat [])

lemma head?_dropWhile_cutset (l : Str) (c : Char)
    (h : (l.dropWhile isCutset).head? = some c) : isCutset c = false := by
  induction l with
  | nil => simp [List.dropWhile] at h
  | cons a t ih =>
    by_cases hp : isCutset a
    · rw [List.dropWhile_cons, if_pos hp] at h
      exact ih h
    · rw [List.dropWhile_cons, if_neg hp] at h
      simp only [List.head?_cons, Option.some.injEq] at h
      rw [← h]
      exact Bool.not_eq_true _ ▸ (by simpa using hp)

lemma getLast?_dropWhile_cutset (l : Str) :
    l.dropWhile isCutset ≠ [] → (l.dropWhile isCutset).getLast? = l.getLast? := by
  induction l with
  | nil => intro h; simp [List.dropWhile] at h
  | cons a t ih =>
    intro h
    by_cases hp : isCutset a
    · rw [List.dropWhile_cons, if_pos hp] at h ⊢
      rw [ih h]
      have ht : t ≠ [] := by
        intro he
        rw [he] at h
        simp [List.dropWhile] at h
      cases t with
      | nil => exact absurd rfl ht
      | cons b u => simp [List.getLast?_cons_cons]
    · rw [List.dropWhile_cons, if_neg hp]

lemma bytesTrim_head? (s : Str) (c : Char) :
    (bytesTrim s).head? = some c → isCutset c = false := by
  intro h
  unfold bytesTrim at h
  rw [List.head?_reverse] at h
  set X := ((s.dropWhile isCutset).reverse).dropWhile isCutset with hX
  have hne : X ≠ [] := by
    intro he
    rw [he] at h
    simp at h
  rw [hX, getLast?_dropWhile_cutset _ (hX ▸ hne), List.getLast?_reverse] at h
  exact head?_dropWhile_cutset s c h

lemma bytesTrim_getLast? (s : Str) (c : Char) :
    (bytesTrim s).getLast? = some c → isCutset c = false := by
  intro h
  unfold bytesTrim at h
  rw [List.getLast?_reverse] at h
  exact head?_dropWhile_cutset _ c h

/-- C4: `source` returns the sentinel `"???"` exactly when the requested
index is negative or beyond the available line count, otherwise the line
with leading and trailing space and tab characters stripped; and the result
never begins or ends with a space or tab. -/
theorem C4_source_sentinel_and_trim (lines : List Str) (n : Int) :
    ((n < 0 ∨ (lines.length : Int) ≤ n) → source lines n = "???".toList) ∧
    (0 ≤ n → n < (lines.length : Int) →
      source lines n = bytesTrim (lines.getD n.toNat [])) ∧
    (∀ c : Char, ((source lines n).head? = some c → isCutset c = false) ∧
      ((source lines n).getLast? = some c → isCutset c = false)) := by
  refine ⟨?_, ?_, ?_⟩
  · intro h
    simp only [source, if_pos h]
    rfl
  · intro h0 h1
    have : ¬ (n < 0 ∨ (lines.length : Int) ≤ n) := by omega
    simp only [source, if_neg this]
  · intro c
    by_cases h : n < 0 ∨ (lines.length : Int) ≤ n
    · simp only [source, if_pos h]
      have hh : dunno.head? = some '?' := by decide
      have hl : dunno.getLast? = some '?' := by decide
      constructor
      · intro hc
        rw [hh] at hc
        injection hc with h2
        subst h2
        decide
      · intro hc
        rw [hl] at hc
        injection hc with h2
        subst h2
        decide
    · simp only [source, if_neg h]
      exact ⟨bytesTrim_head? _ c, bytesTrim_getLast? _ c⟩

/-- A concrete line used by witnesses. -/
def lineW : Str := " \tcall(f) \t ".toList

/-- Witness for C4: a one-line file at index 0 (in range) and the empty
file at index -1 (out of range). -/
theorem C4_witness :
    ((0 : Int) ≤ 0 ∧ (0 : Int) < (([lineW] : List Str).length : Int) ∧
      source [lineW] 0 = bytesTrim (([lineW] : List Str).getD (0 : Int).toNat [])) ∧
    (((-1 : Int) < 0 ∨ (([] : List Str).length : Int) ≤ -1) ∧
      source [] (-1) = "???".toList) :=
  ⟨⟨by norm_num, by decide,
      (C4_source_sentinel_and_trim [lineW] 0).2.1 (by norm_num) (by decide)⟩,
    ⟨Or.inl (by norm_num), (C4_source_sentinel_and_trim [] (-1)).1 (Or.inl (by norm_num))⟩⟩

/-! ## Symbol-name cleanup (`function`) -/

/-- `bytes.Index(s, []byte{b})` for a single-byte pattern: the index of the
first occurrence of `b`, or none (Go returns -1). -/
def bytesIndex (b : Char) : Str → Option Nat
  | [] => none
  | c :: cs => if c = b then some 0 else (bytesIndex b cs).map (· + 1)

/-- The textual replacement applied by `function`: every center-dot glyph
becomes an ordinary dot (`bytes.Replace(name, centerDot, dot, -1)`; the
pattern is a single glyph, so the replacement is a per-character map). -/
def replaceCenterDot (name : Str) : Str :=
  name.map (fun c => if c = centerDot then '.' else c)

/-- `function(pc uintptr) []byte`: the sentinel when symbol lookup fails
(`runtime.FuncForPC` returns nil, modelled by `sym pc = none`); otherwise
the raw name with everything up to and including the first ordinary dot
removed (when one exists) and every center-dot glyph replaced by a dot. -/
def function (sym : Nat → Option Str) (pc : Nat) : Str :=
  match sym pc with
  | none => dunno
  | some name =>
    let name1 := match bytesIndex '.' name with
      | some period => name.drop (period + 1)
      | none => name
    replaceCenterDot name1

/-- Spec side: the text after the first ordinary dot, when one exists. -/
def dropThroughDot : Str → Option Str
  | [] => none
  | c :: cs => if c = '.' then some cs else dropThroughDot cs

/-- Spec side, following the spec's words: strip everything up to and
including the first ordinary dot (removing the package path) when a dot
exists, then replace every occurrence of the center-dot glyph with an
ordinary dot. -/
def specResolve (name : Str) : Str :=
  replaceCenterDot ((dropThroughDot name).getD name)

lemma dropThroughDot_of_bytesIndex_none (l : Str) :
    bytesIndex '.' l = none → dropThroughDot l = none := by
  induction l with
  | nil => intro _; rfl
  | cons c cs ih =>
    intro h
    rw [bytesIndex] at h
    by_cases hc : c = '.'
    · rw [if_pos hc] at h
      cases h
    · rw [if_neg hc] at h
      have hcs : bytesIndex '.' cs = none := by
        cases he : bytesIndex '.' cs with
        | none => rfl
        | some i => rw [he] at h; cases h
      rw [dropThroughDot, if_neg hc]
      exact ih hcs

lemma dropThroughDot_of_bytesIndex_some (l : Str) (i : Nat) :
    bytesIndex '.' l = some i → dropThroughDot l = some (l.drop (i + 1)) := by
  induction l generalizing i with
  | nil => intro h; cases h
  | cons c cs ih =>
    intro h
    rw [bytesIndex] at h
    by_cases hc : c = '.'
    · rw [if_pos hc] at h
      injection h with hi
      rw [dropThroughDot, if_pos hc, ← hi]
      rfl
    · rw [if_neg hc] at h
      cases he : bytesIndex '.' cs with
      | none => rw [he] at h; cases h
      | some j =>
        rw [he] at h
        injection h with hi
        rw [dropThroughDot, if_neg hc, ih j he, ← hi]
        rfl

lemma centerDot_not_mem_replace (l : Str) : centerDot ∉ replaceCenterDot l := by
  intro hmem
  rw [replaceCenterDot, List.mem_map] at hmem
  obtain ⟨b, _, hb⟩ := hmem
  by_cases h : b = centerDot
  · rw [if_pos h] at hb
    exact absurd hb (by decide)
  · rw [if_neg h] at hb
    exact h hb

/-- Raw symbol name used by the C5 example and witness. -/
def rawNameEx : Str := "example/pkg.Type·Method".toList

/-- Symbol table for witnesses: every location resolves to `rawNameEx`. -/
def symEx : Nat → Option Str := fun _ => some rawNameEx

/-- C5: whenever symbol lookup succeeds with raw name `s`, `function`
returns `s` with everything up to and including the first ordinary dot
removed and every center-dot glyph replaced by an ordinary dot; the result
never contains the center-dot glyph; and the raw name
`example/pkg.Type·Method` renders as `Type.Method`. -/
theorem C5_function_cleanup (sym : Nat → Option Str) (pc : Nat) (s : Str)
    (h : sym pc = some s) :
    function sym pc = specResolve s ∧
    centerDot ∉ function sym pc ∧
    function symEx 0 = "Type.Method".toList := by
  have hmain : function sym pc = specResolve s := by
    unfold function specResolve
    rw [h]
    cases hbi : bytesIndex '.' s with
    | none =>
      rw [dropThroughDot_of_bytesIndex_none s hbi]
      show (let name1 := match bytesIndex '.' s with
              | some period => List.drop (period + 1) s
              | none => s
            replaceCenterDot name1) = replaceCenterDot s
      rw [hbi]
    | some i =>
      rw [dropThroughDot_of_bytesIndex_some s i hbi]
      show (let name1 := match bytesIndex '.' s with
              | some period => List.drop (period + 1) s
              | none => s
            replaceCenterDot name1) = replaceCenterDot (List.drop (i + 1) s)
      rw [hbi]
  refine ⟨hmain, ?_, by decide⟩
  rw [hmain]
  unfold specResolve
  exact centerDot_not_mem_replace _

/-- Witness for C5 at the example raw name. -/
theorem C5_witness :
    symEx 0 = some rawNameEx ∧
    (function symEx 0 = specResolve rawNameEx ∧
      centerDot ∉ function symEx 0 ∧
      function symEx 0 = "Type.Method".toList) :=
  ⟨rfl, C5_function_cleanup symEx 0 rawNameEx rfl⟩

/-! ## Human trace formatter (`stack`)

`stack` walks `runtime.Caller(i)` for `i = 2, 3, ...`; the walk is modelled
by the list of frames it yields, in order.  The file system is
`fs : Str → Option Str` (`ioutil.ReadFile`: none models a read error), and
the symbol table is `sym : Nat → Option Str` as above. -/

/-- One frame yielded by `runtime.Caller`: program counter, file, line. -/
structure SFrame where
  pc : Nat
  file : Str
  line : Int

/-- Lowercase hexadecimal rendering of the PC (`%x` on a `uintptr`). -/
def hexStr (n : Nat) : Str := Nat.toDigits 16 n

/-- The first line of a frame's block: `fmt.Fprintf(buf, "%s:%d (0x%x)\n",
file, line, pc)`. -/
def locLine (f : SFrame) : Str :=
  f.file ++ ':' :: itoa f.line ++ " (0x".toList ++ hexStr f.pc ++ ")\n".toList

/-- The second line of a frame's block: `fmt.Fprintf(buf, "\t%s: %s\n",
function(pc), source(lines, line))` with the 1-based line converted to a
0-based index (`line--`). -/
def tabLine (sym : Nat → Option Str) (lines : List Str) (f : SFrame) : Str :=
  '\t' :: function sym f.pc ++ ": ".toList ++ source lines (f.line - 1) ++ "\n".toList

/-- `bytes.Split(data, []byte{'\n'})`. -/
def splitLines : Str → List Str
  | [] => [[]]
  | c :: cs =>
    if c = '\n' then [] :: splitLines cs
    else
      match splitLines cs with
      | [] => [[c]]
      | l :: ls => (c :: l) :: ls

/-- The loop of `stack()`, one list entry per frame.  State: `lines` is the
line-split contents of the most recently read file, `lastFile` its name
(initially the empty string, updated only on a successful read).  Each
frame yields a pair: the text appended to the buffer for that frame, and
the list of files passed to `ioutil.ReadFile` while handling it (the second
component instruments the read calls; it adds nothing to the output). -/
def stackLoop (sym : Nat → Option Str) (fs : Str → Option Str) :
    List SFrame → List Str → Str → List (Str × List Str)
  | [], _, _ => []
  | f :: rest, lines, lastFile =>
    if f.file = lastFile then
      (locLine f ++ tabLine sym lines f, []) :: stackLoop sym fs rest lines lastFile
    else
      match fs f.file with
      | none => (locLine f, [f.file]) :: stackLoop sym fs rest lines lastFile
      | some data =>
        (locLine f ++ tabLine sym (splitLines data) f, [f.file]) ::
          stackLoop sym fs rest (splitLines data) f.file

/-- The per-frame blocks of the formatted trace. -/
def stackBlocks (sym : Nat → Option Str) (fs : Str → Option Str)
    (frames : List SFrame) : List Str :=
  (stackLoop sym fs frames [] []).map Prod.fst

/-- The sequence of files passed to `ioutil.ReadFile` during one run. -/
def stackReadLog (sym : Nat → Option Str) (fs : Str → Option Str)
    (frames : List SFrame) : List Str :=
  ((stackLoop sym fs frames [] []).map Prod.snd).flatten

/-- `stack()`: the whole formatted trace, the concatenation of the
per-frame blocks. -/
def stack (sym : Nat → Option Str) (fs : Str → Option Str)
    (frames : List SFrame) : Str :=
  (stackBlocks sym fs frames).flatten

lemma stackLoop_length (sym : Nat → Option Str) (fs : Str → Option Str) :
    ∀ (frames : List SFrame) (lines : List Str) (lastFile : Str),
      (stackLoop sym fs frames lines lastFile).length = frames.length := by
  intro frames
  induction frames with
  | nil => intro lines lastFile; rfl
  | cons f rest ih =>
    intro lines lastFile
    rw [stackLoop]
    by_cases hfl : f.file = lastFile
    · rw [if_pos hfl, List.length_cons, ih, List.length_cons]
    · rw [if_neg hfl]
      cases fs f.file with
      | none => rw [List.length_cons, ih, List.length_cons]
      | some data => rw [List.length_cons, ih, List.length_cons]

/-- Default frame used with `List.getD`. -/
def frame0 : SFrame := ⟨0, [], 0⟩

lemma stackLoop_block_unreadable (sym : Nat → Option Str) (fs : Str → Option Str) :
    ∀ (frames : List SFrame) (lines : List Str) (lastFile : Str),
      (lastFile = [] ∨ fs lastFile ≠ none) →
      ∀ i, i < frames.length →
        fs (frames.getD i frame0).file = none →
        (frames.getD i frame0).file ≠ [] →
        ((stackLoop sym fs frames lines lastFile).map Prod.fst).getD i [] =
          locLine (frames.getD i frame0) := by
  intro frames
  induction frames with
  | nil =>
    intro lines lastFile _ i hi
    simp at hi
  | cons f rest ih =>
    intro lines lastFile hinv i hi hnone hne
    cases i with
    | zero =>
      have hgd : (f :: rest).getD 0 frame0 = f := rfl
      rw [hgd] at hnone hne ⊢
      have hfl : ¬ f.file = lastFile := by
        intro he
        rcases hinv with h | h
        · exact hne (he.trans h)
        · rw [← he] at h
          exact h hnone
      rw [stackLoop, if_neg hfl, hnone]
      rfl
    | succ j =>
      have hgd : (f :: rest).getD (j + 1) frame0 = rest.getD j frame0 := rfl
      rw [hgd] at hnone hne ⊢
      have hj : j < rest.length := by
        rw [List.length_cons] at hi
        omega
      rw [stackLoop]
      by_cases hfl : f.file = lastFile
      · rw [if_pos hfl, List.map_cons, List.getD_cons_succ]
        exact ih lines lastFile hinv j hj hnone hne
      · rw [if_neg hfl]
        cases hd : fs f.file with
        | none =>
          rw [List.map_cons, List.getD_cons_succ]
          exact ih lines lastFile hinv j hj hnone hne
        | some data =>
          rw [List.map_cons, List.getD_cons_succ]
          refine ih (splitLines data) f.file (Or.inr ?_) j hj hnone hne
          rw [hd]
          exact Option.some_ne_none data

/-- Symbol table that never resolves (every lookup fails). -/
def sym0 : Nat → Option Str := fun _ => none

/-- File system on which every read fails. -/
def fs0 : Str → Option Str := fun _ => none

/-- A concrete file name. -/
def fileA : Str := "a.go".toList

/-- A concrete readable file name. -/
def fileOk : Str := "ok.go".toList

/-- Contents of `fileOk`. -/
def contentOk : Str := "package main\nfunc main()".toList

/-- File system on which exactly `fileOk` is readable. -/
def fs1 : Str → Option Str := fun g => if g = fileOk then some contentOk else none

/-- The single frame of the C6 counterexample: its file path is the empty
string, which no file system can read, yet it collides with the initial
`lastFile` value. -/
def framesC6 : List SFrame := [⟨0, [], 1⟩]

/-- Counterexample to C6 as stated: for the frame with the empty file path
(unreadable: `fs0` fails on every file), `stack` does NOT emit only the
location line — because the path equals the initial `lastFile`, the read is
never attempted, and a tab line carrying the `"???"` sentinel is emitted
from the stale empty cache. -/
theorem C6_counterexample :
    stack sym0 fs0 framesC6 ≠ ":1 (0x0)\n".toList ∧
    stack sym0 fs0 framesC6 = ":1 (0x0)\n\t???: ???\n".toList := by
  refine ⟨by decide, by decide⟩

/-- C6 amended: for every frame whose source file cannot be read and whose
file path is non-empty (so it cannot collide with the initial last-file
cache key, which is the empty string and afterwards only ever names
readable files), the frame's block is exactly its location line
`<file>:<line> (0x<hex>)` — no tab line, no `"???"` in its place — and the
walk continues: there is one block per frame and the trace is their
concatenation. -/
theorem C6_unreadable_frame_block (sym : Nat → Option Str)
    (fs : Str → Option Str) (frames : List SFrame) (i : Nat)
    (hi : i < frames.length)
    (hnone : fs (frames.getD i frame0).file = none)
    (hne : (frames.getD i frame0).file ≠ []) :
    (stackBlocks sym fs frames).getD i [] = locLine (frames.getD i frame0) ∧
    (stackBlocks sym fs frames).length = frames.length ∧
    stack sym fs frames = (stackBlocks sym fs frames).flatten :=
  ⟨stackLoop_block_unreadable sym fs frames [] [] (Or.inl rfl) i hi hnone hne,
    by rw [stackBlocks, List.length_map, stackLoop_length],
    rfl⟩

/-- Frames of the C6 witness: one readable file, then an unreadable one. -/
def framesC6w : List SFrame := [⟨17, fileOk, 1⟩, ⟨18, fileA, 3⟩]

/-- Witness for C6 (amended) at frame index 1 of `framesC6w`. -/
theorem C6_witness :
    (1 < framesC6w.length ∧ fs1 (framesC6w.getD 1 frame0).file = none ∧
      (framesC6w.getD 1 frame0).file ≠ []) ∧
    ((stackBlocks sym0 fs1 framesC6w).getD 1 [] =
        locLine (framesC6w.getD 1 frame0) ∧
      (stackBlocks sym0 fs1 framesC6w).length = framesC6w.length ∧
      stack sym0 fs1 framesC6w = (stackBlocks sym0 fs1 framesC6w).flatten) :=
  ⟨⟨by decide, by decide, by decide⟩,
    C6_unreadable_frame_block sym0 fs1 framesC6w 1 (by decide) (by decide) (by decide)⟩

/-- The two frames of the C8 counterexample: both name the same unreadable
file. -/
def framesC8 : List SFrame := [⟨0, fileA, 1⟩, ⟨0, fileA, 2⟩]

/-- Counterexample to C8 as stated: after the read of `fileA` fails at the
first frame, the formatter attempts to read `fileA` AGAIN at the second
frame — the read log holds two attempts, not the single attempt the claim
allows. -/
theorem C8_counterexample :
    stackReadLog sym0 fs0 framesC8 = [fileA, fileA] ∧
    stackReadLog sym0 fs0 framesC8 ≠ [fileA] := by
  refine ⟨by decide, by decide⟩

lemma stackLoop_readLog_all (sym : Nat → Option Str) (fs : Str → Option Str)
    (f : Str) (hf : fs f = none) :
    ∀ (frames : List SFrame) (lines : List Str) (lastFile : Str),
      lastFile ≠ f → (∀ g ∈ frames, g.file = f) →
      ((stackLoop sym fs frames lines lastFile).map Prod.snd).flatten =
        frames.map SFrame.file := by
  intro frames
  induction frames with
  | nil => intro lines lastFile _ _; rfl
  | cons g rest ih =>
    intro lines lastFile hlf hall
    have hg : g.file = f := hall g (List.mem_cons_self g rest)
    have hfl : ¬ g.file = lastFile := by
      rw [hg]
      intro he
      exact hlf he.symm
    have hnone : fs g.file = none := by rw [hg]; exact hf
    rw [stackLoop, if_neg hfl, hnone, List.map_cons, List.flatten_cons,
      List.map_cons]
    rw [ih lines lastFile hlf fun x hx => hall x (List.mem_cons_of_mem g hx)]
    rfl

/-- C8 amended: once reading a frame's source file has failed, the
formatter attempts the read AGAIN on every subsequent frame naming that
file — the cache records only the most recently successfully read file
(initially the empty path), so a failed read is never cached.  For a run
whose frames all name one unreadable, non-empty file, every single frame
produces a read attempt. -/
theorem C8_failed_read_is_retried (sym : Nat → Option Str)
    (fs : Str → Option Str) (f : Str) (frames : List SFrame)
    (hf : fs f = none) (hne : f ≠ [])
    (hall : ∀ g ∈ frames, g.file = f) :
    stackReadLog sym fs frames = frames.map SFrame.file :=
  stackLoop_readLog_all sym fs f hf frames [] []
    (fun he => hne he.symm) hall

/-- Witness for C8 (amended) on `framesC8`. -/
theorem C8_witness :
    (fs0 fileA = none ∧ fileA ≠ [] ∧ (∀ g ∈ framesC8, g.file = fileA)) ∧
    stackReadLog sym0 fs0 framesC8 = framesC8.map SFrame.file :=
  ⟨⟨rfl, by decide, by decide⟩,
    C8_failed_read_is_retried sym0 fs0 fileA framesC8 rfl (by decide) (by decide)⟩

/-! ## Compact location lister (`Callers`)

The frame source is the list of frames the runtime walk would deliver;
`runtime.Callers(0, pc)` captures the first `len(pc)` of them into the
bulk batch, and `runtime.CallersFrames(pc).Next()` then yields the batch
in order, with `more` false on the last one. -/

/-- One frame yielded by `frames.Next()`: file and line (the fields of
`runtime.Frame` that `Callers` uses). -/
structure Frame where
  file : Str
  line : Int
deriving DecidableEq

/-- The bytes appended for one rendered frame: `frame.File`, `':'`,
`itoa(frame.Line)`. -/
def frameChunk (f : Frame) : Str := f.file ++ ':' :: itoa f.line

/-- The loop of `Callers`: `for i := 0; i < n+max; i++ { frame, more :=
frames.Next(); if i >= n { if prev { append ' ' }; append file, ':',
itoa(line); prev = true }; if !more { break } }`.  The first argument is
the number of iterations left (`n+max-i`), the second the number of frames
still to discard (`n-i`, zero exactly when `i >= n`); `acc` is the
buffer `b`. -/
def callersLoop : Nat → Nat → List Frame → Bool → Str → Str
  | 0, _, _, _, acc => acc
  | _ + 1, _, [], _, acc => acc
  | k + 1, skip, f :: rest, prev, acc =>
    let acc2 :=
      if skip = 0 then acc ++ (if prev then ' ' :: frameChunk f else frameChunk f)
      else acc
    let prev2 := if skip = 0 then true else prev
    if rest.isEmpty then acc2 else callersLoop k (skip - 1) rest prev2 acc2

/-- `Callers(n, max int) []byte` over the frame source `stk`:
`pc := make([]uintptr, max*2); pc = pc[0:runtime.Callers(0, pc)]` captures
the first `max*2` frames as one bulk batch; `if len(pc) == 0 { return nil }`;
then the loop runs over the batch.  A nil result slice is `none` (the
buffer `b` is nil exactly when no frame was rendered, since every rendered
frame appends at least a colon). -/
def Callers (n max : Nat) (stk : List Frame) : Option Str :=
  let pc := stk.take (max * 2)
  if pc = [] then none
  else
    let b := callersLoop (n + max) n pc false []
    if b = [] then none else some b

/-- Variant following the spec's words instead of the code: the bulk batch
requests `(skip+max)*2` frames rather than `max*2`; everything else is
identical. -/
def CallersSpecBatch (n max : Nat) (stk : List Frame) : Option Str :=
  let pc := stk.take ((n + max) * 2)
  if pc = [] then none
  else
    let b := callersLoop (n + max) n pc false []
    if b = [] then none else some b

/-- Spec side: join with a single ASCII space, no trailing separator. -/
def specJoin : List Str → Str
  | [] => []
  | [x] => x
  | x :: y :: xs => x ++ ' ' :: specJoin (y :: xs)

/-- The text the loop appends for a list of chunks when `prev` pairs were
already emitted before it. -/
def withPrev : Bool → List Str → Str
  | _, [] => []
  | prev, c :: cs => (if prev then ' ' :: c else c) ++ withPrev true cs

lemma withPrev_nil (b : Bool) : withPrev b [] = [] := rfl

lemma withPrev_cons (b : Bool) (c : Str) (cs : List Str) :
    withPrev b (c :: cs) = (if b then ' ' :: c else c) ++ withPrev true cs := rfl

lemma specJoin_pair (x y : Str) (xs : List Str) :
    specJoin (x :: y :: xs) = x ++ ' ' :: specJoin (y :: xs) := rfl

lemma callersLoop_zero (skip : Nat) (frames : List Frame) (prev : Bool) (acc : Str) :
    callersLoop 0 skip frames prev acc = acc := rfl

lemma callersLoop_knil (k skip : Nat) (prev : Bool) (acc : Str) :
    callersLoop (k + 1) skip [] prev acc = acc := rfl

lemma callersLoop_zero_one (k : Nat) (f : Frame) (prev : Bool) (acc : Str) :
    callersLoop (k + 1) 0 [f] prev acc =
      acc ++ (if prev then ' ' :: frameChunk f else frameChunk f) := rfl

lemma callersLoop_zero_cons (k : Nat) (f r : Frame) (rs : List Frame)
    (prev : Bool) (acc : Str) :
    callersLoop (k + 1) 0 (f :: r :: rs) prev acc =
      callersLoop k 0 (r :: rs) true
        (acc ++ (if prev then ' ' :: frameChunk f else frameChunk f)) := rfl

lemma callersLoop_succ_one (k s : Nat) (f : Frame) (prev : Bool) (acc : Str) :
    callersLoop (k + 1) (s + 1) [f] prev acc = acc := rfl

lemma callersLoop_succ_cons (k s : Nat) (f r : Frame) (rs : List Frame)
    (prev : Bool) (acc : Str) :
    callersLoop (k + 1) (s + 1) (f :: r :: rs) prev acc =
      callersLoop k s (r :: rs) prev acc := rfl

lemma withPrev_true_eq (cs : List Str) (hne : cs ≠ []) :
    withPrev true cs = ' ' :: specJoin cs := by
  induction cs with
  | nil => exact absurd rfl hne
  | cons c cs ih =>
    rw [withPrev_cons, if_pos rfl]
    cases cs with
    | nil => rw [withPrev_nil, List.cons_append, List.append_nil]; rfl
    | cons y ys =>
      rw [ih (List.cons_ne_nil y ys), specJoin_pair]
      rfl

lemma withPrev_false_eq (cs : List Str) : withPrev false cs = specJoin cs := by
  cases cs with
  | nil => rfl
  | cons c cs =>
    rw [withPrev_cons, if_neg (by simp)]
    cases cs with
    | nil => rw [withPrev_nil, List.append_nil]; rfl
    | cons y ys =>
      rw [withPrev_true_eq (y :: ys) (List.cons_ne_nil y ys), specJoin_pair]

lemma callersLoop_eq (frames : List Frame) :
    ∀ (k skip : Nat) (prev : Bool) (acc : Str),
    callersLoop k skip frames prev acc =
      acc ++ withPrev prev (((frames.take k).drop skip).map frameChunk) := by
  induction frames with
  | nil =>
    intro k skip prev acc
    cases k with
    | zero => simp [callersLoop_zero, withPrev_nil]
    | succ k' => simp [callersLoop_knil, withPrev_nil]
  | cons f rest ih =>
    intro k skip prev acc
    cases k with
    | zero => simp [callersLoop_zero, withPrev_nil]
    | succ k' =>
      cases skip with
      | zero =>
        rw [List.take_succ_cons, List.drop_zero, List.map_cons, withPrev_cons]
        cases rest with
        | nil =>
          rw [callersLoop_zero_one, List.take_nil, List.map_nil, withPrev_nil,
            List.append_nil]
        | cons r rs =>
          rw [callersLoop_zero_cons, ih k' 0 true _, List.drop_zero,
            List.append_assoc]
      | succ s =>
        rw [List.take_succ_cons, List.drop_succ_cons]
        cases rest with
        | nil =>
          rw [callersLoop_succ_one, List.take_nil, List.drop_nil, List.map_nil,
            withPrev_nil, List.append_nil]
        | cons r rs =>
          rw [callersLoop_succ_cons, ih k' s prev acc]

lemma mem_uitoaLoop (fuel : Nat) : ∀ (val : Nat) (acc : Str) (c : Char),
    c ∈ uitoaLoop fuel val acc → c ∈ acc ∨ ∃ d, d < 10 ∧ c = digitCh d := by
  induction fuel with
  | zero => intro val acc c h; exact Or.inl h
  | succ n ih =>
    intro val acc c h
    by_cases h10 : val < 10
    · simp only [uitoaLoop, if_pos h10] at h
      rcases List.mem_cons.mp h with he | hm
      · exact Or.inr ⟨val, h10, he⟩
      · exact Or.inl hm
    · simp only [uitoaLoop, if_neg h10] at h
      rcases ih (val / 10) _ c h with hm | hd
      · rcases List.mem_cons.mp hm with he | hm2
        · exact Or.inr ⟨val % 10, Nat.mod_lt _ (by norm_num), he⟩
        · exact Or.inl hm2
      · exact Or.inr hd

lemma newline_not_mem_itoa (v : Int) : '\n' ∉ itoa v := by
  have hloop : ∀ m : Nat, '\n' ∉ uitoa m := by
    intro m h
    rw [uitoa] at h
    by_cases h0 : m = 0
    · rw [if_pos h0] at h
      exact absurd h (by decide)
    · rw [if_neg h0] at h
      rcases mem_uitoaLoop 20 m [] '\n' h with hm | ⟨d, hd, he⟩
      · exact absurd hm (List.not_mem_nil _)
      · have h1 := digitCh_toNat hd
        rw [← he] at h1
        have h2 : ('\n').toNat = 10 := by decide
        omega
  rw [itoa]
  by_cases hv : v < 0
  · rw [if_pos hv]
    intro h
    rcases List.mem_cons.mp h with he | hm
    · exact absurd he (by decide)
    · exact hloop _ hm
  · rw [if_neg hv]
    exact hloop _

lemma newline_not_mem_frameChunk (f : Frame) (hf : '\n' ∉ f.file) :
    '\n' ∉ frameChunk f := by
  rw [frameChunk]
  intro h
  rcases List.mem_append.mp h with h1 | h2
  · exact hf h1
  · rcases List.mem_cons.mp h2 with he | hm
    · exact absurd he (by decide)
    · exact newline_not_mem_itoa _ hm

lemma mem_specJoin (parts : List Str) (c : Char) :
    c ∈ specJoin parts → c = ' ' ∨ ∃ p ∈ parts, c ∈ p := by
  induction parts with
  | nil => intro h; exact absurd h (List.not_mem_nil _)
  | cons x xs ih =>
    intro h
    cases xs with
    | nil => exact Or.inr ⟨x, List.mem_cons_self x [], h⟩
    | cons y ys =>
      rw [specJoin_pair] at h
      rcases List.mem_append.mp h with h1 | h2
      · exact Or.inr ⟨x, List.mem_cons_self _ _, h1⟩
      · rcases List.mem_cons.mp h2 with he | hm
        · exact Or.inl he
        · rcases ih hm with he | ⟨p, hp, hc⟩
          · exact Or.inl he
          · exact Or.inr ⟨p, List.mem_cons_of_mem x hp, hc⟩

/-- C1: the output of `Callers n max` over any frame source is exactly the
frames of the emission window — the captured batch with the first `n`
discarded and at most `max` kept — rendered as `<file>:<line>` with the
line in decimal and joined by single ASCII spaces with no trailing
separator (`specJoin`); a source shorter than `n + max` simply yields a
shorter window.  When no window file contains a newline, the output
contains no newline anywhere. -/
theorem C1_callers_window_format (n max : Nat) (stk : List Frame) :
    (Callers n max stk).getD [] =
      specJoin ((((stk.take (max * 2)).drop n).take max).map frameChunk) ∧
    ((∀ f ∈ ((stk.take (max * 2)).drop n).take max, '\n' ∉ f.file) →
      '\n' ∉ (Callers n max stk).getD []) := by
  have hwin : ((stk.take (max * 2)).take (n + max)).drop n
      = ((stk.take (max * 2)).drop n).take max :=
    Eq.symm (List.take_drop n max _)
  have hb : callersLoop (n + max) n (stk.take (max * 2)) false [] =
      specJoin ((((stk.take (max * 2)).drop n).take max).map frameChunk) := by
    rw [callersLoop_eq, withPrev_false_eq, List.nil_append, hwin]
  have hmain : (Callers n max stk).getD [] =
      specJoin ((((stk.take (max * 2)).drop n).take max).map frameChunk) := by
    simp only [Callers]
    by_cases hp : stk.take (max * 2) = []
    · rw [if_pos hp, hp]
      simp [specJoin]
    · rw [if_neg hp]
      by_cases hbe : callersLoop (n + max) n (stk.take (max * 2)) false [] = []
      · rw [if_pos hbe, ← hb, hbe]
        rfl
      · rw [if_neg hbe, Option.getD_some, hb]
  refine ⟨hmain, ?_⟩
  intro hfiles hmem
  rw [hmain] at hmem
  rcases mem_specJoin _ _ hmem with he | ⟨p, hp, hc⟩
  · exact absurd he (by decide)
  · rcases List.mem_map.mp hp with ⟨f, hf, rfl⟩
    exact newline_not_mem_frameChunk f (hfiles f hf) hc

/-- More concrete file names for witnesses. -/
def fileB : Str := "b.go".toList

/-- Another concrete file name. -/
def fileC : Str := "c.go".toList

/-- Another concrete file name. -/
def fileD : Str := "d.go".toList

/-- A four-frame source for the C1 witness. -/
def stkW : List Frame := [⟨fileA, 1⟩, ⟨fileB, 22⟩, ⟨fileC, 3⟩, ⟨fileD, 4⟩]

/-- Witness for C1 at `n = 1`, `max = 2` over `stkW`. -/
theorem C1_witness :
    (∀ f ∈ ((stkW.take (2 * 2)).drop 1).take 2, '\n' ∉ f.file) ∧
    '\n' ∉ (Callers 1 2 stkW).getD [] :=
  ⟨by decide, (C1_callers_window_format 1 2 stkW).2 (by decide)⟩

/-- An eight-frame source for the C7 counterexample. -/
def stk8 : List Frame :=
  [⟨fileA, 1⟩, ⟨fileA, 2⟩, ⟨fileA, 3⟩, ⟨fileA, 4⟩,
    ⟨fileA, 5⟩, ⟨fileA, 6⟩, ⟨fileA, 7⟩, ⟨fileA, 8⟩]

/-- Counterexample to C7 as stated: at `skip = 3`, `max = 1` over an
eight-frame source, the code's batch (`max*2 = 2` frames) is exhausted
before the emission window is reached, so `Callers` returns nil — while the
claimed batch of `(skip+max)*2 = 8` frames would have produced the frame at
index 3.  The batch `Callers` requests is `max*2`, not `(skip+max)*2`. -/
theorem C7_counterexample :
    Callers 3 1 stk8 = none ∧ CallersSpecBatch 3 1 stk8 ≠ Callers 3 1 stk8 := by
  refine ⟨by decide, by decide⟩

/-- C7 amended: `Callers` requests a single bulk batch of up to `max*2`
frames (not `(skip+max)*2`): its result depends only on the first `max*2`
frames of the source.  Whenever `skip ≤ max`, the `max*2` margin still
covers the skip window plus the requested count, and the result agrees with
the spec's `(skip+max)*2` batch. -/
theorem C7_batch_is_max_times_two (n max : Nat) (stk : List Frame) :
    Callers n max stk = Callers n max (stk.take (max * 2)) ∧
    (n ≤ max → Callers n max stk = CallersSpecBatch n max stk) := by
  constructor
  · simp only [Callers, List.take_take, min_self]
  · intro hnm
    by_cases hstk : stk = []
    · subst hstk
      simp [Callers, CallersSpecBatch]
    · by_cases hm : max = 0
      · have hn : n = 0 := by omega
        subst hm
        subst hn
        simp [Callers, CallersSpecBatch]
      · have h2 : n + max ≤ max * 2 := by omega
        have h3 : n + max ≤ (n + max) * 2 := by omega
        have hA : (stk.take (max * 2)).take (n + max) = stk.take (n + max) := by
          rw [List.take_take, min_eq_left h2]
        have hB : (stk.take ((n + max) * 2)).take (n + max)
            = stk.take (n + max) := by
          rw [List.take_take, min_eq_left h3]
        have hloop : callersLoop (n + max) n (stk.take (max * 2)) false [] =
            callersLoop (n + max) n (stk.take ((n + max) * 2)) false [] := by
          rw [callersLoop_eq, callersLoop_eq, hA, hB]
        have hAne : stk.take (max * 2) ≠ [] := by
          rw [ne_eq, List.take_eq_nil_iff]
          push_neg
          exact ⟨by omega, hstk⟩
        have hBne : stk.take ((n + max) * 2) ≠ [] := by
          rw [ne_eq, List.take_eq_nil_iff]
          push_neg
          exact ⟨by omega, hstk⟩
        simp only [Callers, CallersSpecBatch, if_neg hAne, if_neg hBne, hloop]

/-- Witness for C7 (amended) at `n = 1`, `max = 2` over `stk8`. -/
theorem C7_witness :
    1 ≤ 2 ∧ Callers 1 2 stk8 = CallersSpecBatch 1 2 stk8 :=
  ⟨by norm_num, (C7_batch_is_max_times_two 1 2 stk8).2 (by norm_num)⟩

/-- C9: when the frame source yields zero frames, `Callers` returns the
absent (nil) sequence `none`, which is distinct from a present zero-length
sequence `some []`; no error is involved (the result type has no error
alternative). -/
theorem C9_no_frames_gives_nil (n max : Nat) :
    Callers n max [] = none ∧ Callers n max [] ≠ some [] := by
  constructor
  · simp [Callers]
  · simp [Callers]
